import Mathlib

/-!
Verification of the YASK stencil-kernel runtime library against its
natural-language specification.  The definitions below are shallow
embeddings of the C++ code in src/kernel/lib (setup.cpp, yask.hpp,
stencil_calc.hpp) and src/common (common_utils.hpp); machine integers
(idx_t = int64_t) are modelled as Nat or Int, with C-style truncating
division written Int.tdiv where the C++ operand signs matter.
Definitions whose C++ source lies outside the provided files are
modelled from the specification and carry a doc comment saying so.
-/

namespace Yask

/-- Macro CEIL_DIV(numer, denom) of common_utils.hpp line 59, for
nonnegative operands (all uses embedded with Nat arguments). -/
def ceilDivN (numer denom : Nat) : Nat := (numer + denom - 1) / denom

/-- Macro ROUND_UP(n, mult) of common_utils.hpp line 60, for
nonnegative operands. -/
def roundUpN (n mult : Nat) : Nat := ceilDivN n mult * mult

/-- Macro CEIL_DIV(numer, denom) of common_utils.hpp line 59 on idx_t;
C++ division truncates toward zero, which is Int.tdiv. -/
def ceilDivI (numer denom : Int) : Int := Int.tdiv (numer + denom - 1) denom

/-- Macro ROUND_UP(n, mult) of common_utils.hpp line 60 on idx_t. -/
def roundUpI (n mult : Int) : Int := ceilDivI n mult * mult

/-! ### The yask_for loop driver (common_utils.hpp lines 116-178)

The serial path (lines 121-127) and the non-nested OpenMP path (lines
129-141) run the identical loop

  for (idx_t i = 0; i < end; i += stride) \x7b
      idx_t stop = std::min(i + stride, end);
      visitor(i, stop, tn);
  \x7d

so both are embedded by the one chunk list below; only the nested path
(lines 143-176) derives its iteration count from begin.  -/

/-- Chunks (start, stop) passed to the visitor by the canonical loop of
yask_for, beginning at index i: while i < end emit
(i, min (i + stride) end) and advance i by stride. -/
def yaskForChunksFrom (i e stride : Int) : List (Int × Int) :=
  if h : 0 < stride ∧ i < e then
    (i, min (i + stride) e) :: yaskForChunksFrom (i + stride) e stride
  else []
termination_by (e - i).toNat
decreasing_by
  simp only [Int.lt_iff_add_one_le] at h
  omega

/-- Embedding of yask_for (common_utils.hpp lines 116-127): after the
emptiness test `if (end <= begin) return;` the serial and non-nested
OpenMP loops both start at i = 0, not at begin. -/
def yaskForChunks (b e stride : Int) : List (Int × Int) :=
  if e ≤ b then [] else yaskForChunksFrom 0 e stride

/-- Chunks emitted from i cover the interval [i, e) exactly. -/
theorem yaskForChunksFrom_cover :
    ∀ i e s : Int, 0 < s →
      ∀ x : Int, (∃ c ∈ yaskForChunksFrom i e s, c.1 ≤ x ∧ x < c.2) ↔ i ≤ x ∧ x < e := by
  intro i e s
  induction i, e, s using yaskForChunksFrom.induct with
  | case1 i e s h ih =>
    intro hs x
    rw [yaskForChunksFrom, dif_pos h]
    constructor
    · rintro ⟨c, hc, hx1, hx2⟩
      rcases List.mem_cons.mp hc with rfl | hc
      · simp only [lt_min_iff] at hx2
        exact ⟨hx1, hx2.2⟩
      · have := (ih hs x).mp ⟨c, hc, hx1, hx2⟩
        constructor <;> omega
    · rintro ⟨hx1, hx2⟩
      by_cases hcase : x < i + s
      · exact ⟨(i, min (i + s) e), List.mem_cons_self _ _, hx1, lt_min_iff.mpr ⟨hcase, hx2⟩⟩
      · have := (ih hs x).mpr ⟨by omega, hx2⟩
        obtain ⟨c, hc, hcx⟩ := this
        exact ⟨c, List.mem_cons_of_mem _ hc, hcx⟩
  | case2 i e s h =>
    intro hs x
    rw [yaskForChunksFrom, dif_neg h]
    simp only [List.not_mem_nil, false_and, exists_false, false_iff, not_and, not_lt]
    intro hx
    omega

/-- Claim C10: for yask_for(begin, end, stride, visitor) with
0 < begin < end and positive stride, the serial path and the non-nested
OpenMP path pass chunks to the visitor starting at index 0 rather than
begin; their chunks cover exactly [0, end) instead of [begin, end), and
begin influences only the initial emptiness test (any other begin value
below end yields the identical chunk list). -/
theorem C10_yask_for_starts_at_zero (b e s : Int)
    (hb : 0 < b) (hbe : b < e) (hs : 0 < s) :
    (yaskForChunks b e s).head? = some (0, min s e)
    ∧ (∀ x : Int, (∃ c ∈ yaskForChunks b e s, c.1 ≤ x ∧ x < c.2) ↔ 0 ≤ x ∧ x < e)
    ∧ (∀ b' : Int, b' < e → yaskForChunks b e s = yaskForChunks b' e s) := by
  have hne : ¬ e ≤ b := not_le.mpr hbe
  have he : (0 : Int) < e := by omega
  refine ⟨?_, ?_, ?_⟩
  · rw [yaskForChunks, if_neg hne, yaskForChunksFrom, dif_pos ⟨hs, he⟩]
    simp
  · intro x
    rw [yaskForChunks, if_neg hne]
    exact yaskForChunksFrom_cover 0 e s hs x
  · intro b' hb'
    rw [yaskForChunks, if_neg hne, yaskForChunks, if_neg (not_le.mpr hb')]

/-- Witness for C10 at begin = 2, end = 5, stride = 2. -/
theorem C10_yask_for_starts_at_zero_witness :
    (0 : Int) < 2 ∧ (2 : Int) < 5 ∧ (0 : Int) < 2 ∧
      ((yaskForChunks 2 5 2).head? = some (0, min 2 5)
       ∧ (∀ x : Int, (∃ c ∈ yaskForChunks 2 5 2, c.1 ≤ x ∧ x < c.2) ↔ 0 ≤ x ∧ x < 5)
       ∧ (∀ b' : Int, b' < 5 → yaskForChunks 2 5 2 = yaskForChunks b' 5 2)) :=
  ⟨by decide, by decide, by decide,
   C10_yask_for_starts_at_zero 2 5 2 (by decide) (by decide) (by decide)⟩

/-! ### Temporal-blocking phases and shapes
(yask.hpp calc_region lines 919-932 and calc_block lines 1077-1090) -/

/-- Number of tessellation phases used by calc_region when temporal
blocking is active (yask.hpp line 925): nphases = nddims + 1. -/
def nphasesTB (nddims : Nat) : Nat := nddims + 1

/-- Modelled from the spec: the helper choose(n, k) called at yask.hpp
line 1086 is not among the provided sources; the spec describes the
count of shapes in phase k as the number of combinations of k bridged
dimensions out of n, i.e. the binomial coefficient. -/
def chooseCombos (n k : Nat) : Nat := Nat.choose n k

/-- Number of shapes evaluated by calc_block for a given phase
(yask.hpp line 1086): nshapes = choose(nddims, phase). -/
def nshapesTB (nddims phase : Nat) : Nat := chooseCombos nddims phase

/-- Phase structure of one region time-stride under temporal blocking:
calc_region runs phases 0 .. nddims (yask.hpp line 926), and for each
phase calc_block evaluates nshapes shapes (yask.hpp lines 1086, 1132). -/
def tbPhaseShapes (nddims : Nat) : List Nat :=
  (List.range (nphasesTB nddims)).map (nshapesTB nddims)

/-- Claim C8: with temporal blocking in an n-dimensional domain, each
region time-stride is tessellated in exactly n + 1 phases, phase k
computing C(n, k) shapes, with one shape each in phase 0 and phase n. -/
theorem C8_tb_phases_and_shapes (n : Nat) :
    (tbPhaseShapes n).length = n + 1
    ∧ (∀ k, k < n + 1 → (tbPhaseShapes n).getD k 0 = Nat.choose n k)
    ∧ (tbPhaseShapes n).getD 0 0 = 1
    ∧ (tbPhaseShapes n).getD n 0 = 1 := by
  have hlen : (tbPhaseShapes n).length = n + 1 := by
    simp [tbPhaseShapes, nphasesTB]
  have hget : ∀ k, k < n + 1 → (tbPhaseShapes n).getD k 0 = Nat.choose n k := by
    intro k hk
    have hk2 : k < (tbPhaseShapes n).length := by omega
    rw [List.getD_eq_getElem _ _ hk2]
    simp [tbPhaseShapes, nphasesTB, nshapesTB, chooseCombos]
  refine ⟨hlen, hget, ?_, ?_⟩
  · rw [hget 0 (by omega)]
    exact Nat.choose_zero_right n
  · rw [hget n (by omega)]
    exact Nat.choose_self n

/-- Witness for C8 at n = 3, k = 2. -/
theorem C8_tb_phases_and_shapes_witness :
    (tbPhaseShapes 3).getD 2 0 = Nat.choose 3 2 ∧ (tbPhaseShapes 3).length = 3 + 1 :=
  ⟨(C8_tb_phases_and_shapes 3).2.1 2 (by decide), (C8_tb_phases_and_shapes 3).1⟩

/-! ### update_tb_info (setup.cpp lines 667-824) -/

/-- Per-domain-dim inputs read by update_tb_info: region size, block
size, mini-block size, max halo and vector-fold points in this dim
(setup.cpp lines 697-710 and 800-815). -/
structure TbDimIn where
  rnsize : Int
  blksize : Int
  mblksize : Int
  maxHalo : Int
  foldPts : Int
deriving Repr, DecidableEq, Inhabited

/-- Outputs of update_tb_info. -/
structure TbOut where
  tbSteps : Int
  numTbShifts : Int
  tbAngles : List Int
  mbAngles : List Int
  tbWidths : List Int
  tbTops : List Int
deriving Repr, DecidableEq

/-- Required shift in one dim (setup.cpp line 710):
angle = ROUND_UP(max_halos[j], fold_pts[j]). -/
def tbDimAngle (d : TbDimIn) : Int := roundUpI d.maxHalo d.foldPts

/-- Reduction of max_steps over the domain dims (setup.cpp lines
694-744): for each dim with a positive TB angle, the max number of
temporal steps is (blksize - top_sz + 2 angle) / sh_pts with
top_sz = fold_pts and sh_pts = 2 angle npacks, truncating division. -/
def tbMaxStepsFold (npacks : Nat) (dims : List TbDimIn) (ms0 : Int) : Int :=
  dims.foldl (fun ms d =>
    let a := if d.blksize < d.rnsize then tbDimAngle d else 0
    if 0 < a then
      let topSz := d.foldPts
      let shPts := a * 2 * (npacks : Int)
      let nsteps := Int.tdiv (d.blksize - topSz + a * 2) shPts
      min ms nsteps
    else ms) ms0

/-- Stored TB angles (setup.cpp lines 676 and 721-724): reset to zero,
set inside the tb_steps > 0 branch to angle when the block is smaller
than the region in that dim. -/
def tbAnglesOf (reqTbSteps : Int) (dims : List TbDimIn) : List Int :=
  if 0 < reqTbSteps then
    dims.map (fun d => if d.blksize < d.rnsize then tbDimAngle d else 0)
  else dims.map (fun _ => 0)

/-- Stored MB angles (setup.cpp lines 679 and 714-717). -/
def mbAnglesOf (reqTbSteps : Int) (dims : List TbDimIn) : List Int :=
  if 0 < reqTbSteps then
    dims.map (fun d => if d.mblksize < d.blksize then tbDimAngle d else 0)
  else dims.map (fun _ => 0)

/-- Final TB depth (setup.cpp lines 687-747): the requested depth,
clamped when positive to min(tb_steps, wf_steps) and to each dim's
maximum step count. -/
def tbStepsOf (reqTbSteps wfSteps : Int) (npacks : Nat) (dims : List TbDimIn) : Int :=
  if 0 < reqTbSteps then
    min reqTbSteps (tbMaxStepsFold npacks dims (min reqTbSteps wfSteps))
  else reqTbSteps

/-- Number of TB shifts (setup.cpp lines 751-760): npacks * tb_steps
when tb_steps > 0, decremented when positive. -/
def numTbShiftsOf (reqTbSteps wfSteps : Int) (npacks : Nat) (dims : List TbDimIn) : Int :=
  let tbSteps := tbStepsOf reqTbSteps wfSteps npacks dims
  let n0 := if 0 < tbSteps then (npacks : Int) * tbSteps else 0
  if 0 < n0 then n0 - 1 else n0

/-- Trapezoid (base width, top) for one dim at a given shift count
(setup.cpp lines 800-821): width and top default to the block size; if
shifts and the stored angle are positive then with sa = shifts * angle,
width = max(ROUND_UP(CEIL_DIV(blk_sz, 2) + sa, fold), fold + 2 sa) and
top = max(width - 2 sa, 0). -/
def tbWidthTop (shifts : Int) (p : TbDimIn × Int) : Int × Int :=
  let d := p.1
  let a := p.2
  if 0 < shifts ∧ 0 < a then
    let sa := shifts * a
    let minBlkWidth := d.foldPts + 2 * sa
    let w := max (roundUpI (ceilDivI d.blksize 2 + sa) d.foldPts) minBlkWidth
    (w, max (w - 2 * sa) 0)
  else (d.blksize, d.blksize)

/-- Embedding of StencilContext::update_tb_info (setup.cpp lines
667-824), assembling the stored angles, TB depth, shift count and
per-dim trapezoid dimensions. -/
def updateTbInfo (reqTbSteps wfSteps : Int) (npacks : Nat) (dims : List TbDimIn) : TbOut :=
  let tbAngles := tbAnglesOf reqTbSteps dims
  let shifts := numTbShiftsOf reqTbSteps wfSteps npacks dims
  let widthTop := (dims.zip tbAngles).map (tbWidthTop shifts)
  ⟨tbStepsOf reqTbSteps wfSteps npacks dims, shifts, tbAngles,
   mbAnglesOf reqTbSteps dims, widthTop.map Prod.fst, widthTop.map Prod.snd⟩

/-- Counterexample to claim C9 as stated: in a 1-D domain with
region size 64, block size 16, mini-block size 16, max halo 4, fold 4,
wf_steps = 4, one pack, and requested tb_steps = 2, update_tb_info
reaches tb_steps = 2 (so temporal blocking is active), num_tb_shifts = 1
and tb_angle = 4, yet the trapezoid top is 4, while the claimed formula
block_size - 2 * num_tb_shifts * tb_angle yields 16 - 8 = 8.  The code
derives the top from the rounded base width (setup.cpp line 817), not
from the block size. -/
theorem C9_counterexample :
    (updateTbInfo 2 4 1 [⟨64, 16, 16, 4, 4⟩]).tbSteps = 2
    ∧ (updateTbInfo 2 4 1 [⟨64, 16, 16, 4, 4⟩]).numTbShifts = 1
    ∧ (updateTbInfo 2 4 1 [⟨64, 16, 16, 4, 4⟩]).tbAngles = [4]
    ∧ (updateTbInfo 2 4 1 [⟨64, 16, 16, 4, 4⟩]).tbTops = [4]
    ∧ ((16 : Int) - 2 * 1 * 4 = 8) ∧ ((4 : Int) ≠ 8) := by
  refine ⟨?_, ?_, ?_, ?_, by decide, by decide⟩ <;> rfl

/-- Claim C9 (amended): when update_tb_info activates the trapezoid
computation in dim j (num_tb_shifts > 0 and stored TB angle positive),
then with sa = num_tb_shifts * tb_angle[j] the base width equals
max(round_up(ceil_div(block_size[j], 2) + sa, fold[j]), fold[j] + 2 sa)
and the top equals max(base_width - 2 sa, 0): the top is derived from
the rounded, clamped base width rather than from the block size. -/
theorem C9_tb_trapezoid (reqTb wfSteps : Int) (npacks : Nat) (dims : List TbDimIn)
    (j : Nat) (hj : j < dims.length)
    (hshift : 0 < (updateTbInfo reqTb wfSteps npacks dims).numTbShifts)
    (hangle : 0 < (updateTbInfo reqTb wfSteps npacks dims).tbAngles.getD j 0) :
    ((updateTbInfo reqTb wfSteps npacks dims).tbWidths.getD j 0
        = max (roundUpI (ceilDivI (dims.getD j default).blksize 2
                + (updateTbInfo reqTb wfSteps npacks dims).numTbShifts
                  * (updateTbInfo reqTb wfSteps npacks dims).tbAngles.getD j 0)
              (dims.getD j default).foldPts)
            ((dims.getD j default).foldPts
              + 2 * ((updateTbInfo reqTb wfSteps npacks dims).numTbShifts
                  * (updateTbInfo reqTb wfSteps npacks dims).tbAngles.getD j 0)))
    ∧ (updateTbInfo reqTb wfSteps npacks dims).tbTops.getD j 0
        = max ((updateTbInfo reqTb wfSteps npacks dims).tbWidths.getD j 0
                - 2 * ((updateTbInfo reqTb wfSteps npacks dims).numTbShifts
                  * (updateTbInfo reqTb wfSteps npacks dims).tbAngles.getD j 0)) 0 := by
  have hrA : (updateTbInfo reqTb wfSteps npacks dims).tbAngles = tbAnglesOf reqTb dims := rfl
  have hrS : (updateTbInfo reqTb wfSteps npacks dims).numTbShifts
      = numTbShiftsOf reqTb wfSteps npacks dims := rfl
  have hrW : (updateTbInfo reqTb wfSteps npacks dims).tbWidths
      = ((dims.zip (tbAnglesOf reqTb dims)).map
          (tbWidthTop (numTbShiftsOf reqTb wfSteps npacks dims))).map Prod.fst := rfl
  have hrT : (updateTbInfo reqTb wfSteps npacks dims).tbTops
      = ((dims.zip (tbAnglesOf reqTb dims)).map
          (tbWidthTop (numTbShiftsOf reqTb wfSteps npacks dims))).map Prod.snd := rfl
  have hlenA : (tbAnglesOf reqTb dims).length = dims.length := by
    unfold tbAnglesOf
    split <;> simp
  have hja : j < (tbAnglesOf reqTb dims).length := by omega
  have hjz : j < (dims.zip (tbAnglesOf reqTb dims)).length := by
    rw [List.length_zip]
    omega
  have hjw : j < (((dims.zip (tbAnglesOf reqTb dims)).map
      (tbWidthTop (numTbShiftsOf reqTb wfSteps npacks dims))).map Prod.fst).length := by
    simpa using hjz
  have hjt : j < (((dims.zip (tbAnglesOf reqTb dims)).map
      (tbWidthTop (numTbShiftsOf reqTb wfSteps npacks dims))).map Prod.snd).length := by
    simpa using hjz
  have hd : dims.getD j default = dims[j] := List.getD_eq_getElem dims default hj
  have ha : (updateTbInfo reqTb wfSteps npacks dims).tbAngles.getD j 0
      = (tbAnglesOf reqTb dims)[j] := by
    rw [hrA]
    exact List.getD_eq_getElem _ 0 hja
  have hW : (updateTbInfo reqTb wfSteps npacks dims).tbWidths.getD j 0
      = (tbWidthTop (numTbShiftsOf reqTb wfSteps npacks dims)
          (dims[j], (tbAnglesOf reqTb dims)[j])).1 := by
    rw [hrW, List.getD_eq_getElem _ 0 hjw]
    simp [List.getElem_zip]
  have hT : (updateTbInfo reqTb wfSteps npacks dims).tbTops.getD j 0
      = (tbWidthTop (numTbShiftsOf reqTb wfSteps npacks dims)
          (dims[j], (tbAnglesOf reqTb dims)[j])).2 := by
    rw [hrT, List.getD_eq_getElem _ 0 hjt]
    simp [List.getElem_zip]
  rw [ha] at hangle
  rw [hrS] at hshift
  rw [hW, hT, hd, ha, hrS]
  rw [tbWidthTop, if_pos ⟨hshift, hangle⟩]
  exact ⟨rfl, rfl⟩

/-- Witness for the amended C9 at the counterexample configuration:
the theorem applied with all hypotheses discharged gives the concrete
base width 12 and top 4. -/
theorem C9_tb_trapezoid_witness :
    (updateTbInfo 2 4 1 [⟨64, 16, 16, 4, 4⟩]).tbWidths.getD 0 0 = 12
    ∧ (updateTbInfo 2 4 1 [⟨64, 16, 16, 4, 4⟩]).tbTops.getD 0 0 = 4 := by
  have h := C9_tb_trapezoid 2 4 1 [⟨64, 16, 16, 4, 4⟩] 0
    (by decide) (by decide) (by decide)
  refine ⟨?_, ?_⟩
  · rw [h.1]
    decide
  · rw [h.2, h.1]
    decide

/-! ### Wave-front angles (setup.cpp update_grid_info lines 593-636)
and shift_region (yask.hpp lines 1323-1494) -/

/-- Wave-front angle for one domain dim (setup.cpp lines 600-611):
angle = ROUND_UP(max_halos, fold_pts); wf_angle is that angle when the
region size is smaller than the rank size or there is more than one
rank in this dim, else 0. -/
def wfAngleOf (maxHalo foldPts rnsize rksize nranks : Int) : Int :=
  let angle := roundUpI maxHalo foldPts
  if rnsize < rksize ∨ 1 < nranks then angle else 0

/-- One domain-dim slice of the inputs of shift_region, modelling runs
in which MPI overlap is inactive, so that the is_overlap_active()
section of yask.hpp lines 1372-1473 is a no-op.  hasPack = false models
a null BundlePackPtr, which skips all trimming (yask.hpp line 1350). -/
structure ShiftDimIn where
  angle : Int
  shiftNum : Int
  baseStart : Int
  baseStop : Int
  pbbBegin : Int
  pbbEnd : Int
  rankBegin : Int
  rankEnd : Int
  leftWfExt : Int
  rightWfExt : Int
  hasPack : Bool
deriving Repr, DecidableEq

/-- Trimming part of one dim of shift_region (yask.hpp lines
1349-1480), applied to already-shifted boundaries: clamp into the pack
BB (which also clamps into the extended rank BB), tighten inside the
left and right wave-front extensions, and report an empty result as
none. -/
def trimRegionDim (p : ShiftDimIn) (rstart0 rstop0 : Int) : Option (Int × Int) :=
  let shiftAmt := p.angle * p.shiftNum
  if p.hasPack then
    let rstart1 := max rstart0 p.pbbBegin
    let rstop1 := min rstop0 p.pbbEnd
    let rstart2 := if rstart1 < p.rankBegin ∧ p.leftWfExt ≠ 0 then
        max rstart1 (p.rankBegin - p.leftWfExt + shiftAmt) else rstart1
    let rstop2 := if p.rankEnd < rstop1 ∧ p.rightWfExt ≠ 0 then
        min rstop1 (p.rankEnd + p.rightWfExt - shiftAmt) else rstop1
    if rstop2 ≤ rstart2 then none else some (rstart2, rstop2)
  else some (rstart0, rstop0)

/-- Embedding of one dim of StencilContext::shift_region (yask.hpp
lines 1338-1485): shift the base boundaries left by angle * shift_num
(lines 1340-1347), then trim. -/
def shiftRegionDim (p : ShiftDimIn) : Option (Int × Int) :=
  let shiftAmt := p.angle * p.shiftNum
  let rstart := p.baseStart - shiftAmt
  let rstop := p.baseStop - shiftAmt
  if p.hasPack then
    let rstart1 := max rstart p.pbbBegin
    let rstop1 := min rstop p.pbbEnd
    let rstart2 := if rstart1 < p.rankBegin ∧ p.leftWfExt ≠ 0 then
        max rstart1 (p.rankBegin - p.leftWfExt + shiftAmt) else rstart1
    let rstop2 := if p.rankEnd < rstop1 ∧ p.rightWfExt ≠ 0 then
        min rstop1 (p.rankEnd + p.rightWfExt - shiftAmt) else rstop1
    if rstop2 ≤ rstart2 then none else some (rstart2, rstop2)
  else some (rstart, rstop)

/-- Claim C7: the wave-front angle equals round_up(max_halo, fold)
exactly when the region size is below the rank size or multiple ranks
exist in the dim (and 0 otherwise), and shift_region moves the region
start and stop left by exactly wf_angle * shift_num before any
clamping: it factors through the shifted boundaries, and with no pack
to trim against it returns exactly the shifted boundaries. -/
theorem C7_wf_angle_and_shift (maxHalo foldPts rnsize rksize nranks : Int)
    (p : ShiftDimIn) :
    (wfAngleOf maxHalo foldPts rnsize rksize nranks
      = (if rnsize < rksize ∨ 1 < nranks then roundUpI maxHalo foldPts else 0))
    ∧ shiftRegionDim p
      = trimRegionDim p (p.baseStart - p.angle * p.shiftNum) (p.baseStop - p.angle * p.shiftNum)
    ∧ (p.hasPack = false →
        shiftRegionDim p
          = some (p.baseStart - p.angle * p.shiftNum, p.baseStop - p.angle * p.shiftNum)) := by
  refine ⟨rfl, rfl, ?_⟩
  intro h
  rw [shiftRegionDim, h]
  simp

/-- Witness for C7 at concrete inputs: with no pack the region is
shifted left by angle * shift_num = 12 with no clamping. -/
theorem C7_wf_angle_and_shift_witness :
    (⟨4, 3, 10, 20, 0, 0, 0, 0, 0, 0, false⟩ : ShiftDimIn).hasPack = false ∧
      shiftRegionDim ⟨4, 3, 10, 20, 0, 0, 0, 0, 0, 0, false⟩ = some (-2, 8) := by
  have h := (C7_wf_angle_and_shift 0 1 0 0 1 ⟨4, 3, 10, 20, 0, 0, 0, 0, 0, 0, false⟩).2.2 rfl
  refine ⟨rfl, ?_⟩
  rw [h]
  decide

/-! ### run_solution entry check (yask.hpp lines 374-423) -/

/-- Error kinds of the spec error taxonomy (spec section 7). -/
inductive ErrKind
  | config
  | storage
  | scheduling
  | topology
  | comm
  | internal
deriving Repr, DecidableEq

/-- Exception thrown by run_solution when the solution is not prepared
(yask.hpp line 419); the spec taxonomy classifies it as a
SchedulingError. -/
inductive RunErr
  | notPrepared
deriving Repr, DecidableEq

/-- Spec-taxonomy kind of each run_solution exception. -/
def runErrKind : RunErr → ErrKind
  | .notPrepared => .scheduling

/-- Observable stencil-engine actions of run_solution, recorded so that
the theorems can state that no stencil computation happens: region
evaluations, halo exchanges and dirty-marking passes. -/
inductive RunAct
  | calcRegionAct (step : Int)
  | exchangeAct
  | updateVarsAct (startT stopT : Int)
deriving Repr, DecidableEq

/-- Modelled from the spec: is_prepared() is not among the provided
sources (only its call site at yask.hpp line 418 is); per the spec
lifecycle, prepare_solution marks the solution prepared, and
run_solution called first must fail.  The state carries the fields of
StencilContext that the run_solution skeleton reads. -/
structure SolutionState where
  prepared : Bool
  extBbSize : Int
  wfSteps : Int
  npacks : Nat
deriving Repr, DecidableEq

/-- Actions of one step-loop iteration of run_solution (yask.hpp lines
501-739) with overlap inactive: with wf_steps = 0, each pack gets one
region pass, one update_vars and one exchange_halos (lines 522-631);
with wave-fronts, one region pass over all packs, one update_vars and
one exchange_halos (lines 635-708). -/
def runStepActs (st : SolutionState) (startT stopT : Int) : List RunAct :=
  if st.wfSteps = 0 then
    (List.range st.npacks).bind
      (fun _ => [RunAct.calcRegionAct startT, RunAct.updateVarsAct startT stopT,
                 RunAct.exchangeAct])
  else [RunAct.calcRegionAct startT, RunAct.updateVarsAct startT stopT, RunAct.exchangeAct]

/-- Skeleton of StencilContext::run_solution (yask.hpp lines 374-758):
hooks and timers (not recorded), the is_prepared() guard of line 418,
the empty-BB early return of line 420, the initial halo exchange of
line 496, then the step loop.  Returns the recorded actions and the
exception, if any. -/
def runSolution (st : SolutionState) (first last : Int) : List RunAct × Option RunErr :=
  let stepDir : Int := if last ≥ first then 1 else -1
  let strideT := max st.wfSteps 1 * stepDir
  let endT := last + stepDir
  if st.prepared = false then ([], some RunErr.notPrepared)
  else if st.extBbSize < 1 then ([], none)
  else
    let numT := ceilDivI (endT - first).natAbs strideT.natAbs
    (RunAct.exchangeAct ::
      (List.range numT.toNat).bind (fun i =>
        let startT := first + i * strideT
        let stopT := if 0 < strideT then min (startT + strideT) endT
                     else max (startT + strideT) endT
        runStepActs st startT stopT),
     none)

/-- Claim C4: calling run_solution before prepare_solution always
raises the SchedulingError-kind exception and performs no stencil
computation (the recorded action trace is empty). -/
theorem C4_run_before_prepare (st : SolutionState) (first last : Int)
    (h : st.prepared = false) :
    runSolution st first last = ([], some RunErr.notPrepared)
    ∧ runErrKind RunErr.notPrepared = ErrKind.scheduling := by
  refine ⟨?_, rfl⟩
  rw [runSolution, if_pos h]

/-- Witness for C4: an unprepared solution state with a nonempty
domain. -/
theorem C4_run_before_prepare_witness :
    (⟨false, 100, 0, 1⟩ : SolutionState).prepared = false ∧
      (runSolution ⟨false, 100, 0, 1⟩ 0 10 = ([], some RunErr.notPrepared)
       ∧ runErrKind RunErr.notPrepared = ErrKind.scheduling) :=
  ⟨rfl, C4_run_before_prepare ⟨false, 100, 0, 1⟩ 0 10 rfl⟩

/-! ### setupRank neighbor-alignment check (setup.cpp lines 260-515)

The second barrier-synchronised pass of setupRank walks all ranks; for
each rank in-line with this one in some dim it verifies that the two
local-domain sizes agree in every other dim. -/

/-- Exceptions thrown inside the rank loop of setupRank: distance to
own rank nonzero (setup.cpp line 307), two ranks at the same
coordinates (line 314), and neighbor local-domain sizes unaligned
(line 350).  The spec taxonomy classes the last two as TopologyError
and the first as an internal error. -/
inductive SetupErr
  | selfDistance
  | sameCoords
  | misaligned
deriving Repr, DecidableEq

/-- Spec-taxonomy kind of each setupRank exception. -/
def setupErrKind : SetupErr → ErrKind
  | .selfDistance => .internal
  | .sameCoords => .topology
  | .misaligned => .topology

/-- Sequencing of fallible checks over a list, stopping at the first
exception, as a C++ loop containing throw statements does. -/
def exceptForEach : List α → (α → Except SetupErr Unit) → Except SetupErr Unit
  | [], _ => .ok ()
  | a :: l, f =>
    match f a with
    | .error e => .error e
    | .ok _ => exceptForEach l f

theorem exceptForEach_ok_iff (l : List α) (f : α → Except SetupErr Unit) :
    exceptForEach l f = .ok () ↔ ∀ a ∈ l, f a = .ok () := by
  induction l with
  | nil => simp [exceptForEach]
  | cons a l ih =>
    rw [exceptForEach]
    cases hfa : f a with
    | error e => simp [hfa]
    | ok u =>
      cases u
      simp only [List.mem_cons]
      constructor
      · intro h b hb
        rcases hb with rfl | hb
        · exact hfa
        · exact (ih.mp h) b hb
      · intro h
        exact ih.mpr (fun b hb => h b (Or.inr hb))

theorem exceptForEach_error (l : List α) (f : α → Except SetupErr Unit) (e : SetupErr)
    (h : exceptForEach l f = .error e) : ∃ a ∈ l, f a = .error e := by
  induction l with
  | nil => simp [exceptForEach] at h
  | cons a l ih =>
    rw [exceptForEach] at h
    cases hfa : f a with
    | error e2 =>
      rw [hfa] at h
      cases h
      exact ⟨a, List.mem_cons_self a l, hfa⟩
    | ok u =>
      cases u
      rw [hfa] at h
      obtain ⟨b, hb, hfb⟩ := ih h
      exact ⟨b, List.mem_cons_of_mem a hb, hfb⟩

/-- Checks performed for one rank rn in the pass-1 loop of setupRank
(setup.cpp lines 285-369): compute the coordinate deltas and Manhattan
distance (lines 288-302), reject a nonzero distance to itself (line
305) or a duplicate coordinate (line 312), then for every dim di in
line with this rank (deltas zero in all other dims, lines 325-331)
require equal local-domain sizes in every other dim (lines 344-360). -/
def checkRankPair (n : Nat) (coords rsizes : Nat → Nat → Int) (me rn : Nat) :
    Except SetupErr Unit :=
  let delta := fun d => coords rn d - coords me d
  let mandist := ((List.range n).map (fun d => (delta d).natAbs)).sum
  match (if rn = me then
          (if mandist ≠ 0 then Except.error SetupErr.selfDistance else Except.ok ())
         else
          (if mandist = 0 then Except.error SetupErr.sameCoords else Except.ok ())) with
  | .error e => .error e
  | .ok _ =>
    exceptForEach (List.range n) (fun di =>
      if (List.range n).all (fun dj => dj == di || delta dj == 0) then
        exceptForEach (List.range n) (fun dj =>
          if dj ≠ di ∧ rsizes me dj ≠ rsizes rn dj then .error SetupErr.misaligned
          else .ok ())
      else .ok ())

/-- Pass-1 rank loop of setupRank (setup.cpp line 285): check every
rank, including this one, in rank order. -/
def pass1Check (nr n : Nat) (coords rsizes : Nat → Nat → Int) (me : Nat) :
    Except SetupErr Unit :=
  exceptForEach (List.range nr) (checkRankPair n coords rsizes me)

/-- Every exception escaping checkRankPair is TopologyError-kind: the
selfDistance branch is unreachable because the deltas of a rank against
itself are zero. -/
theorem checkRankPair_error_kind (n : Nat) (coords rsizes : Nat → Nat → Int)
    (me rn : Nat) (e : SetupErr)
    (h : checkRankPair n coords rsizes me rn = .error e) :
    setupErrKind e = ErrKind.topology := by
  rw [checkRankPair] at h
  by_cases hrn : rn = me
  · subst hrn
    have hz : ((List.range n).map (fun d => (coords rn d - coords rn d).natAbs)).sum = 0 := by
      simp
    simp only [if_pos rfl, hz, ne_eq, not_true_eq_false, if_false] at h
    obtain ⟨di, _, hdi⟩ := exceptForEach_error _ _ e h
    by_cases hinl : (List.range n).all (fun dj => dj == di || coords rn dj - coords rn dj == 0)
    · rw [if_pos hinl] at hdi
      obtain ⟨dj, _, hdj⟩ := exceptForEach_error _ _ e hdi
      simp at hdj
    · rw [if_neg hinl] at hdi
      cases hdi
  · simp only [if_neg hrn] at h
    by_cases hmd : ((List.range n).map
        (fun d => (coords rn d - coords me d).natAbs)).sum = 0
    · rw [if_pos hmd] at h
      cases h
      rfl
    · rw [if_neg hmd] at h
      obtain ⟨di, _, hdi⟩ := exceptForEach_error _ _ e h
      by_cases hinl : (List.range n).all
          (fun dj => dj == di || coords rn dj - coords me dj == 0)
      · rw [if_pos hinl] at hdi
        obtain ⟨dj, _, hdj⟩ := exceptForEach_error _ _ e hdi
        by_cases hc : dj ≠ di ∧ rsizes me dj ≠ rsizes rn dj
        · rw [if_pos hc] at hdj
          cases hdj
          rfl
        · rw [if_neg hc] at hdj
          cases hdj
      · rw [if_neg hinl] at hdi
        cases hdi

/-- If checkRankPair accepts rank rn, then for every dim di in line
with this rank the sizes agree in every other dim. -/
theorem checkRankPair_ok (n : Nat) (coords rsizes : Nat → Nat → Int) (me rn : Nat)
    (h : checkRankPair n coords rsizes me rn = .ok ())
    (di : Nat) (hdi : di < n)
    (hinline : ∀ dj < n, dj ≠ di → coords rn dj = coords me dj) :
    ∀ dj < n, dj ≠ di → rsizes me dj = rsizes rn dj := by
  intro dj hdj hne
  rw [checkRankPair] at h
  set hd := (if rn = me then
          (if ((List.range n).map (fun d => (coords rn d - coords me d).natAbs)).sum ≠ 0
           then Except.error SetupErr.selfDistance else Except.ok ())
         else
          (if ((List.range n).map (fun d => (coords rn d - coords me d).natAbs)).sum = 0
           then Except.error SetupErr.sameCoords else Except.ok ())) with hhd
  cases hd0 : hd with
  | error e =>
    rw [hd0] at h
    cases h
  | ok u =>
    cases u
    rw [hd0] at h
    have h2 := (exceptForEach_ok_iff _ _).mp h di (List.mem_range.mpr hdi)
    have hinl : (List.range n).all
        (fun dj => dj == di || coords rn dj - coords me dj == 0) = true := by
      rw [List.all_eq_true]
      intro dk hdk
      rw [List.mem_range] at hdk
      by_cases hke : dk = di
      · simp [hke]
      · have := hinline dk hdk hke
        simp [hke, this]
    rw [if_pos hinl] at h2
    have h3 := (exceptForEach_ok_iff _ _).mp h2 dj (List.mem_range.mpr hdj)
    by_cases hc : dj ≠ di ∧ rsizes me dj ≠ rsizes rn dj
    · rw [if_pos hc] at h3
      cases h3
    · push_neg at hc
      exact hc hne

/-- Claim C6: if some rank rn is in line with the checking rank in a
dim di (coordinates equal in every other dim) while their local-domain
sizes differ in some other dim, the pass-1 check of setupRank raises a
TopologyError-kind exception on the checking rank. -/
theorem C6_neighbor_misalignment (nr n : Nat) (coords rsizes : Nat → Nat → Int)
    (me : Nat)
    (h : ∃ rn < nr, ∃ di < n,
      (∀ dj < n, dj ≠ di → coords rn dj = coords me dj)
      ∧ ∃ dj < n, dj ≠ di ∧ rsizes me dj ≠ rsizes rn dj) :
    ∃ e, pass1Check nr n coords rsizes me = .error e
      ∧ setupErrKind e = ErrKind.topology := by
  obtain ⟨rn, hrn, di, hdi, hinline, dj, hdj, hne, hsz⟩ := h
  cases hres : pass1Check nr n coords rsizes me with
  | ok u =>
    cases u
    rw [pass1Check] at hres
    have hok := (exceptForEach_ok_iff _ _).mp hres rn (List.mem_range.mpr hrn)
    exact absurd (checkRankPair_ok n coords rsizes me rn hok di hdi hinline dj hdj hne) hsz
  | error e =>
    rw [pass1Check] at hres
    obtain ⟨rn2, _, herr⟩ := exceptForEach_error _ _ e hres
    exact ⟨e, hres ▸ rfl, checkRankPair_error_kind n coords rsizes me rn2 e herr⟩

/-- Witness for C6: two ranks on a 2-D grid, in line in dim 0, with
different local sizes in dim 1; the check reports the misalignment. -/
theorem C6_neighbor_misalignment_witness :
    (∃ rn < 2, ∃ di < 2,
      (∀ dj < 2, dj ≠ di →
        (fun r d => if r = 0 then (0 : Int) else if d = 0 then 1 else 0) rn dj
          = (fun r d => if r = 0 then (0 : Int) else if d = 0 then 1 else 0) 0 dj)
      ∧ ∃ dj < 2, dj ≠ di ∧
        (fun r d => if r = 0 then (10 : Int) else if d = 0 then 10 else 11) 0 dj
          ≠ (fun r d => if r = 0 then (10 : Int) else if d = 0 then 10 else 11) rn dj)
    ∧ ∃ e, pass1Check 2 2
        (fun r d => if r = 0 then (0 : Int) else if d = 0 then 1 else 0)
        (fun r d => if r = 0 then (10 : Int) else if d = 0 then 10 else 11) 0 = .error e
        ∧ setupErrKind e = ErrKind.topology :=
  ⟨by decide,
   C6_neighbor_misalignment 2 2
     (fun r d => if r = 0 then (0 : Int) else if d = 0 then 1 else 0)
     (fun r d => if r = 0 then (10 : Int) else if d = 0 then 10 else 11) 0 (by decide)⟩

/-! ### Rank-layout factorisation (setup.cpp setupRank lines 151-223)

When the per-dim rank counts do not multiply to the total rank count
(some dim is zero), setupRank enumerates candidate layouts over the
factors of the rank count and keeps the most compact one. -/

/-- Factors of the total rank count (setup.cpp lines 155-158): all n in
1..nr with nr % n == 0, in increasing order. -/
def rankFactors (nr : Nat) : List Nat :=
  ((List.range nr).map Nat.succ).filter (fun f => nr % f == 0)

/-- Number of search options per dim (setup.cpp lines 167-181): one for
the first dim and for any dim with a user-specified (nonzero) count,
else the number of factors.  The isFirst flag tracks position 0. -/
def comboSizes (nr : Nat) (isFirst : Bool) : List Nat → List Nat
  | [] => []
  | s :: rest =>
      (if isFirst || s != 0 then 1 else (rankFactors nr).length) :: comboSizes nr false rest

/-- All index tuples visited by combos.visitAllPoints (setup.cpp line
183): the cartesian product of the per-dim index ranges. -/
def comboTuples : List Nat → List (List Nat)
  | [] => [[]]
  | sz :: rest => (List.range sz).flatMap (fun i => (comboTuples rest).map (i :: ·))

/-- Override of a mapped factor by the user-specified count (setup.cpp
lines 187-194): the specified count when nonzero, else the factor at
the combo index. -/
def factOverride (nr : Nat) (s i : Nat) : Nat :=
  if s ≠ 0 then s else (rankFactors nr).getD i 1

/-- Candidate layout built from one combo (setup.cpp lines 185-203):
map each index through the factor list, override user-specified counts,
and, when the first dim is unspecified, recompute it as nr divided by
the product of the remaining dims. -/
def layoutOf (nr : Nat) (spec c : List Nat) : List Nat :=
  let m := List.zipWith (factOverride nr) spec c
  match spec, m with
  | 0 :: _, _ :: mtail => (nr / mtail.prod) :: mtail
  | _, _ => m

/-- Maximum entry of a layout (IdxTuple max, setup.cpp lines 208-213). -/
def maxVal (l : List Nat) : Nat := l.foldl max 0

/-- One step of the best-layout fold (setup.cpp lines 210-214): a
candidate replaces the best so far exactly when there is none yet or
its maximum per-dim count is strictly smaller. -/
def pickStep (best : Option (List Nat)) (cand : List Nat) : Option (List Nat) :=
  match best with
  | none => some cand
  | some b => if maxVal cand < maxVal b then some cand else some b

/-- Best-layout fold over a candidate list in visitation order. -/
def pickBest (ls : List (List Nat)) : Option (List Nat) :=
  ls.foldl pickStep none

/-- The valid candidate layouts: those whose product equals the total
rank count (setup.cpp line 206). -/
def validLayouts (nr : Nat) (spec : List Nat) : List (List Nat) :=
  ((comboTuples (comboSizes nr true spec)).map (layoutOf nr spec)).filter
    (fun L => L.prod == nr)

/-- The layout selected by the search (setup.cpp lines 161-221). -/
def selectNumRanks (nr : Nat) (spec : List Nat) : Option (List Nat) :=
  pickBest (validLayouts nr spec)

/-- The per-dim rank counts after setupRank (setup.cpp lines 152 and
222): the user counts when their product is nonzero, else the layout
found by the search (whose success the source asserts at line 219). -/
def chooseNumRanks (nr : Nat) (spec : List Nat) : List Nat :=
  if spec.prod ≠ 0 then spec else (selectNumRanks nr spec).getD spec

theorem foldl_max_le (l : List Nat) :
    ∀ acc m : Nat, l.foldl max acc ≤ m ↔ acc ≤ m ∧ ∀ x ∈ l, x ≤ m := by
  induction l with
  | nil => simp
  | cons a l ih =>
    intro acc m
    rw [List.foldl_cons, ih]
    simp only [max_le_iff, List.mem_cons]
    constructor
    · rintro ⟨⟨h1, h2⟩, h3⟩
      refine ⟨h1, ?_⟩
      rintro x (rfl | hx)
      · exact h2
      · exact h3 x hx
    · rintro ⟨h1, h2⟩
      exact ⟨⟨h1, h2 a (Or.inl rfl)⟩, fun x hx => h2 x (Or.inr hx)⟩

theorem maxVal_le_iff (l : List Nat) (m : Nat) : maxVal l ≤ m ↔ ∀ x ∈ l, x ≤ m := by
  rw [maxVal, foldl_max_le]
  simp

/-- The fold keeps an element of the list (or the initial accumulator)
whose maximum is minimal among the list and the accumulator. -/
theorem foldl_pickStep_spec (ls : List (List Nat)) :
    ∀ acc b, ls.foldl pickStep acc = some b →
      (b ∈ ls ∨ acc = some b)
      ∧ (∀ x ∈ ls, maxVal b ≤ maxVal x)
      ∧ (∀ a, acc = some a → maxVal b ≤ maxVal a) := by
  induction ls with
  | nil =>
    intro acc b h
    rw [List.foldl_nil] at h
    refine ⟨Or.inr h, by simp, ?_⟩
    intro a ha
    rw [h] at ha
    cases ha
    exact le_refl _
  | cons cand rest ih =>
    intro acc b h
    rw [List.foldl_cons] at h
    obtain ⟨hmem, hminRest, hminAcc⟩ := ih (pickStep acc cand) b h
    have hstepCand : maxVal b ≤ maxVal cand := by
      cases acc with
      | none =>
        exact hminAcc cand rfl
      | some a =>
        by_cases hlt : maxVal cand < maxVal a
        · exact hminAcc cand (by simp [pickStep, hlt])
        · have := hminAcc a (by simp [pickStep, hlt])
          omega
    have hstepAcc : ∀ a, acc = some a → maxVal b ≤ maxVal a := by
      intro a ha
      subst ha
      by_cases hlt : maxVal cand < maxVal a
      · have := hminAcc cand (by simp [pickStep, hlt])
        omega
      · exact hminAcc a (by simp [pickStep, hlt])
    refine ⟨?_, ?_, hstepAcc⟩
    · rcases hmem with hb | hstep
      · exact Or.inl (List.mem_cons_of_mem _ hb)
      · cases acc with
        | none =>
          simp only [pickStep] at hstep
          cases hstep
          exact Or.inl (List.mem_cons_self _ _)
        | some a =>
          by_cases hlt : maxVal cand < maxVal a
          · simp only [pickStep, if_pos hlt] at hstep
            cases hstep
            exact Or.inl (List.mem_cons_self _ _)
          · simp only [pickStep, if_neg hlt] at hstep
            exact Or.inr hstep
    · intro x hx
      rcases List.mem_cons.mp hx with rfl | hx
      · exact hstepCand
      · exact hminRest x hx

theorem pickBest_spec (ls : List (List Nat)) (b : List Nat) (h : pickBest ls = some b) :
    b ∈ ls ∧ ∀ x ∈ ls, maxVal b ≤ maxVal x := by
  obtain ⟨hmem, hmin, _⟩ := foldl_pickStep_spec ls none b h
  rcases hmem with hb | hno
  · exact ⟨hb, hmin⟩
  · cases hno

theorem comboTuples_length {szs c : List Nat} (h : c ∈ comboTuples szs) :
    c.length = szs.length := by
  induction szs generalizing c with
  | nil =>
    simp only [comboTuples, List.mem_singleton] at h
    subst h
    rfl
  | cons sz rest ih =>
    rw [comboTuples] at h
    simp only [List.mem_flatMap, List.mem_map, List.mem_range] at h
    obtain ⟨i, hi, t, ht, rfl⟩ := h
    simp [ih ht]

theorem comboTuples_getD {szs c : List Nat} (h : c ∈ comboTuples szs) :
    ∀ j < szs.length, c.getD j 0 < szs.getD j 0 := by
  induction szs generalizing c with
  | nil =>
    intro j hj
    simp at hj
  | cons sz rest ih =>
    rw [comboTuples] at h
    simp only [List.mem_flatMap, List.mem_map, List.mem_range] at h
    obtain ⟨i, hi, t, ht, rfl⟩ := h
    intro j hj
    cases j with
    | zero => simpa using hi
    | succ j => exact ih ht j (by simpa using hj)

theorem comboTuples_mem {szs : List Nat} :
    ∀ c : List Nat, c.length = szs.length →
      (∀ j < szs.length, c.getD j 0 < szs.getD j 0) → c ∈ comboTuples szs := by
  induction szs with
  | nil =>
    intro c hc _
    rw [List.length_nil, List.length_eq_zero] at hc
    subst hc
    simp [comboTuples]
  | cons sz rest ih =>
    intro c hc hlt
    cases c with
    | nil => simp at hc
    | cons i t =>
      rw [comboTuples]
      simp only [List.mem_flatMap, List.mem_map, List.mem_range]
      refine ⟨i, ?_, t, ?_, rfl⟩
      · simpa using hlt 0 (by simp)
      · refine ih t (by simpa using hc) ?_
        intro j hj
        simpa using hlt (j + 1) (by simpa using Nat.succ_lt_succ hj)

theorem comboSizes_length (nr : Nat) (fl : Bool) (spec : List Nat) :
    (comboSizes nr fl spec).length = spec.length := by
  induction spec generalizing fl with
  | nil => rfl
  | cons s rest ih =>
    rw [comboSizes]
    simp [ih]

theorem comboSizes_getD (nr : Nat) :
    ∀ (spec : List Nat) (fl : Bool) (j : Nat), j < spec.length →
      (comboSizes nr fl spec).getD j 0
        = if (j = 0 ∧ fl = true) ∨ spec.getD j 0 ≠ 0 then 1
          else (rankFactors nr).length := by
  intro spec
  induction spec with
  | nil =>
    intro fl j hj
    simp at hj
  | cons s rest ih =>
    intro fl j hj
    cases j with
    | zero =>
      rw [comboSizes]
      simp only [List.getD_cons_zero]
      cases fl <;> by_cases hs : s = 0 <;> simp [hs]
    | succ j =>
      rw [comboSizes]
      simp only [List.getD_cons_succ]
      rw [ih false j (by simpa using hj)]
      by_cases hj0 : j = 0 <;> simp [hj0]

theorem mem_rankFactors {nr f : Nat} :
    f ∈ rankFactors nr ↔ 1 ≤ f ∧ f ≤ nr ∧ nr % f = 0 := by
  rw [rankFactors]
  simp only [List.mem_filter, List.mem_map, List.mem_range]
  constructor
  · rintro ⟨⟨k, hk, rfl⟩, hmod⟩
    exact ⟨Nat.succ_le_succ (Nat.zero_le k), hk, by simpa using hmod⟩
  · rintro ⟨h1, h2, h3⟩
    exact ⟨⟨f - 1, by omega, by omega⟩, by simpa using h3⟩

theorem layoutOf_cons_pos (nr k : Nat) (st : List Nat) (c0 : Nat) (ct : List Nat) :
    layoutOf nr ((k + 1) :: st) (c0 :: ct)
      = (k + 1) :: List.zipWith (factOverride nr) st ct := rfl

theorem layoutOf_cons_zero (nr : Nat) (st : List Nat) (c0 : Nat) (ct : List Nat) :
    layoutOf nr (0 :: st) (c0 :: ct)
      = (nr / (List.zipWith (factOverride nr) st ct).prod)
          :: List.zipWith (factOverride nr) st ct := rfl

theorem layoutOf_getD_succ (nr : Nat) (spec c : List Nat) (j : Nat) :
    (layoutOf nr spec c).getD (j + 1) 0
      = (List.zipWith (factOverride nr) spec c).getD (j + 1) 0 := by
  cases spec with
  | nil => rfl
  | cons s0 st =>
    cases c with
    | nil => cases s0 <;> rfl
    | cons c0 ct => cases s0 <;> rfl

theorem layoutOf_length {nr : Nat} {spec c : List Nat} (h : c.length = spec.length) :
    (layoutOf nr spec c).length = spec.length := by
  cases spec with
  | nil => rfl
  | cons s0 st =>
    cases c with
    | nil => simp at h
    | cons c0 ct =>
      have hz : (List.zipWith (factOverride nr) st ct).length = st.length := by
        rw [List.length_zipWith]
        simp only [List.length_cons] at h
        omega
      cases s0 with
      | zero =>
        rw [layoutOf_cons_zero]
        simp [hz]
      | succ k =>
        rw [layoutOf_cons_pos]
        simp [hz]

theorem zipWith_factOverride_getD (nr : Nat) (spec c : List Nat) (j : Nat)
    (hj : j < spec.length) (hc : c.length = spec.length) :
    (List.zipWith (factOverride nr) spec c).getD j 0
      = factOverride nr (spec.getD j 0) (c.getD j 0) := by
  have hlen : j < (List.zipWith (factOverride nr) spec c).length := by
    rw [List.length_zipWith]
    omega
  rw [List.getD_eq_getElem _ _ hlen, List.getElem_zipWith,
      List.getD_eq_getElem spec 0 hj, List.getD_eq_getElem c 0 (by omega)]

/-- Every valid candidate layout has product nr, the right length, and
respects the user-specified counts. -/
theorem validLayouts_props {nr : Nat} {spec b : List Nat}
    (hb : b ∈ validLayouts nr spec) :
    b.prod = nr ∧ b.length = spec.length
    ∧ ∀ j < spec.length, spec.getD j 0 ≠ 0 → b.getD j 0 = spec.getD j 0 := by
  rw [validLayouts, List.mem_filter] at hb
  obtain ⟨hmem, hprod⟩ := hb
  rw [List.mem_map] at hmem
  obtain ⟨c, hc, rfl⟩ := hmem
  have hclen : c.length = spec.length := by
    rw [comboTuples_length hc, comboSizes_length]
  refine ⟨by simpa using hprod, layoutOf_length hclen, ?_⟩
  intro j hj hspec
  cases j with
  | zero =>
    cases spec with
    | nil => simp at hj
    | cons s0 st =>
      cases c with
      | nil => simp at hclen
      | cons c0 ct =>
        simp only [List.getD_cons_zero] at hspec ⊢
        cases s0 with
        | zero => exact absurd rfl hspec
        | succ k =>
          rw [layoutOf_cons_pos]
          rfl
  | succ j =>
    rw [layoutOf_getD_succ, zipWith_factOverride_getD nr spec c (j + 1) hj hclen,
        factOverride, if_pos hspec]

/-- Helper for the completeness proof: the combo tuple whose layout is
a given valid layout. -/
def comboFor (nr : Nat) (spec L : List Nat) : List Nat :=
  (List.range spec.length).map (fun j =>
    if j = 0 ∨ spec.getD j 0 ≠ 0 then 0 else (rankFactors nr).indexOf (L.getD j 1))

theorem comboFor_getD (nr : Nat) (spec L : List Nat) (j : Nat) (hj : j < spec.length) :
    (comboFor nr spec L).getD j 0
      = if j = 0 ∨ spec.getD j 0 ≠ 0 then 0 else (rankFactors nr).indexOf (L.getD j 1) := by
  rw [comboFor]
  have hjr : j < ((List.range spec.length).map (fun j =>
      if j = 0 ∨ spec.getD j 0 ≠ 0 then 0
      else (rankFactors nr).indexOf (L.getD j 1))).length := by
    simpa using hj
  rw [List.getD_eq_getElem _ _ hjr, List.getElem_map, List.getElem_range]

theorem valid_layout_mem_factors {nr : Nat} {L : List Nat} (hnr : 0 < nr)
    (hprod : L.prod = nr) (j : Nat) (hj : j < L.length) :
    L.getD j 1 ∈ rankFactors nr := by
  have hmem : L.getD j 1 ∈ L := by
    rw [List.getD_eq_getElem _ _ hj]
    exact List.getElem_mem hj
  have hdvd : L.getD j 1 ∣ nr := hprod ▸ List.dvd_prod hmem
  have hne : L.getD j 1 ≠ 0 := by
    intro h0
    rw [h0] at hmem
    have : L.prod = 0 := List.prod_eq_zero hmem
    omega
  refine mem_rankFactors.mpr ⟨by omega, Nat.le_of_dvd hnr hdvd, ?_⟩
  obtain ⟨k, hk⟩ := hdvd
  rw [hk]
  exact Nat.mul_mod_right _ _

theorem comboFor_mem {nr : Nat} {spec L : List Nat} (hnr : 0 < nr)
    (hlen : L.length = spec.length) (hprod : L.prod = nr) :
    comboFor nr spec L ∈ comboTuples (comboSizes nr true spec) := by
  have hcflen : (comboFor nr spec L).length = spec.length := by
    rw [comboFor]
    simp
  apply comboTuples_mem
  · rw [hcflen, comboSizes_length]
  · intro j hj
    rw [comboSizes_length] at hj
    rw [comboFor_getD nr spec L j hj, comboSizes_getD nr spec true j hj]
    by_cases hj0 : j = 0
    · rw [if_pos (Or.inl hj0),
        if_pos (show (j = 0 ∧ (true : Bool) = true) ∨ spec.getD j 0 ≠ 0 from
          Or.inl ⟨hj0, rfl⟩)]
      omega
    · by_cases hsp : spec.getD j 0 ≠ 0
      · rw [if_pos (Or.inr hsp),
          if_pos (show (j = 0 ∧ (true : Bool) = true) ∨ spec.getD j 0 ≠ 0 from
            Or.inr hsp)]
        omega
      · push_neg at hsp
        rw [if_neg (show ¬ (j = 0 ∨ spec.getD j 0 ≠ 0) by
              rintro (h | h)
              · exact hj0 h
              · exact h hsp),
          if_neg (show ¬ ((j = 0 ∧ (true : Bool) = true) ∨ spec.getD j 0 ≠ 0) by
              rintro (⟨h, _⟩ | h)
              · exact hj0 h
              · exact h hsp)]
        exact List.indexOf_lt_length.mpr
          (valid_layout_mem_factors hnr hprod j (by omega))

/-- The layout built from comboFor reproduces the given valid layout,
so the search space covers every admissible factorisation. -/
theorem layoutOf_comboFor {nr : Nat} {spec L : List Nat} (hnr : 0 < nr)
    (hlen : L.length = spec.length) (hprod : L.prod = nr)
    (hresp : ∀ j < spec.length, spec.getD j 0 ≠ 0 → L.getD j 0 = spec.getD j 0) :
    layoutOf nr spec (comboFor nr spec L) = L := by
  have hcflen : (comboFor nr spec L).length = spec.length := by
    rw [comboFor]
    simp
  have hMget : ∀ j, j ≠ 0 → j < spec.length →
      (List.zipWith (factOverride nr) spec (comboFor nr spec L)).getD j 0
        = L.getD j 0 := by
    intro j hj0 hj
    rw [zipWith_factOverride_getD nr spec _ j hj hcflen, comboFor_getD nr spec L j hj]
    by_cases hsp : spec.getD j 0 ≠ 0
    · rw [factOverride, if_pos hsp]
      exact (hresp j hj hsp).symm
    · push_neg at hsp
      rw [if_neg (show ¬ (j = 0 ∨ spec.getD j 0 ≠ 0) by
            rintro (h | h)
            · exact hj0 h
            · exact h hsp),
        factOverride, if_neg (by simpa using hsp)]
      have hjL : j < L.length := by omega
      have hmemF : L.getD j 1 ∈ rankFactors nr := valid_layout_mem_factors hnr hprod j hjL
      have hidx : (rankFactors nr).indexOf (L.getD j 1) < (rankFactors nr).length :=
        List.indexOf_lt_length.mpr hmemF
      rw [List.getD_eq_getElem _ _ hidx, List.getElem_indexOf hidx]
      rw [List.getD_eq_getElem L 1 hjL, List.getD_eq_getElem L 0 hjL]
  cases spec with
  | nil =>
    have hL : L = [] := by
      rw [List.length_nil] at hlen
      exact List.length_eq_zero.mp hlen
    subst hL
    rfl
  | cons s0 st =>
    obtain ⟨L0, Lt, rfl⟩ : ∃ L0 Lt, L = L0 :: Lt := by
      cases L with
      | nil => simp at hlen
      | cons a b => exact ⟨a, b, rfl⟩
    obtain ⟨c0, ct, hc⟩ : ∃ c0 ct, comboFor nr (s0 :: st) (L0 :: Lt) = c0 :: ct := by
      cases hcf : comboFor nr (s0 :: st) (L0 :: Lt) with
      | nil =>
        rw [hcf] at hcflen
        simp at hcflen
      | cons a b => exact ⟨a, b, rfl⟩
    have hMt : List.zipWith (factOverride nr) st ct = Lt := by
      apply List.ext_getElem
      · rw [hc] at hcflen
        rw [List.length_zipWith]
        simp only [List.length_cons] at hlen hcflen
        omega
      · intro j h1 h2
        have hjst : j < st.length := by
          rw [List.length_zipWith] at h1
          omega
        have hstep := hMget (j + 1) (Nat.succ_ne_zero j) (by simpa using hjst)
        rw [hc] at hstep
        simp only [List.zipWith_cons_cons, List.getD_cons_succ] at hstep
        rw [← List.getD_eq_getElem _ 0 h1, ← List.getD_eq_getElem _ 0 h2]
        exact hstep
    cases s0 with
    | zero =>
      rw [hc, layoutOf_cons_zero, hMt]
      have hLtprod : 0 < Lt.prod := by
        rcases Nat.eq_zero_or_pos Lt.prod with h0 | h
        · exfalso
          rw [List.prod_cons, h0, Nat.mul_zero] at hprod
          omega
        · exact h
      have hdiv : nr / Lt.prod = L0 := by
        rw [List.prod_cons] at hprod
        rw [← hprod]
        exact Nat.mul_div_cancel L0 hLtprod
      rw [hdiv]
    | succ k =>
      rw [hc, layoutOf_cons_pos, hMt]
      have h0 := hresp 0 (by simp) (by simp)
      simp only [List.getD_cons_zero] at h0
      rw [h0]

/-- Claim C5: when the user-specified per-dim rank counts contain a
zero (their product is zero), the layout chosen by setupRank is a
factorisation of the total rank count whose dim-by-dim product equals
the number of active ranks, which respects every user-specified
nonzero per-dim count, and whose maximum per-dim count is smallest
among all factorisations satisfying those constraints. -/
theorem C5_rank_layout (nr : Nat) (spec b : List Nat) (hnr : 0 < nr)
    (hzero : spec.prod = 0) (hsel : selectNumRanks nr spec = some b) :
    chooseNumRanks nr spec = b
    ∧ b.prod = nr
    ∧ b.length = spec.length
    ∧ (∀ j < spec.length, spec.getD j 0 ≠ 0 → b.getD j 0 = spec.getD j 0)
    ∧ ∀ L : List Nat, L.length = spec.length → L.prod = nr →
        (∀ j < spec.length, spec.getD j 0 ≠ 0 → L.getD j 0 = spec.getD j 0) →
        maxVal b ≤ maxVal L := by
  obtain ⟨hmem, hmin⟩ := pickBest_spec _ b hsel
  obtain ⟨hprod, hblen, hbresp⟩ := validLayouts_props hmem
  refine ⟨?_, hprod, hblen, hbresp, ?_⟩
  · rw [chooseNumRanks, if_neg (by omega), hsel]
    rfl
  · intro L hLlen hLprod hLresp
    apply hmin
    rw [validLayouts, List.mem_filter]
    constructor
    · rw [List.mem_map]
      exact ⟨comboFor nr spec L, comboFor_mem hnr hLlen hLprod,
             layoutOf_comboFor hnr hLlen hLprod hLresp⟩
    · simp [hLprod]

/-- Witness for C5 at nr = 6 and two unspecified dims: the search picks
the layout 3 x 2, whose maximum 3 is minimal (compare 6 x 1). -/
theorem C5_rank_layout_witness :
    selectNumRanks 6 [0, 0] = some [3, 2]
    ∧ chooseNumRanks 6 [0, 0] = [3, 2]
    ∧ ([3, 2] : List Nat).prod = 6
    ∧ maxVal [3, 2] ≤ maxVal [6, 1] := by
  have h := C5_rank_layout 6 [0, 0] [3, 2] (by decide) (by decide) (by decide)
  exact ⟨by decide, h.1, h.2.1, h.2.2.2.2 [6, 1] (by decide) (by decide) (by decide)⟩

/-! ### Dirty-step flags (yask.hpp update_vars lines 2120-2166 and
exchange_halos lines 2095-2102)

The per-variable dirty map itself lives in the variable store, outside
the provided sources; it is modelled from the spec (sections 3 and 4.2):
one boolean per live step, a valid-step window advanced by
update_valid_step, flags falling out of the window cleared. -/

/-- Modelled from the spec: the per-variable dirty map (spec section
4.2).  alloc live steps; the window is (last - alloc, last]; flags
lists one dirty bit per live step, position i holding step last - i. -/
structure VarDirty where
  alloc : Nat
  last : Int
  flags : List Bool
deriving Repr, DecidableEq

/-- Whether step t is inside the live window. -/
def isLive (v : VarDirty) (t : Int) : Bool :=
  decide (v.last - (v.alloc : Int) < t) && decide (t ≤ v.last)

/-- Modelled from the spec: is_dirty(t) of the variable store; false
outside the live window. -/
def isDirtyAt (v : VarDirty) (t : Int) : Bool :=
  if isLive v t then v.flags.getD (v.last - t).toNat false else false

/-- Modelled from the spec: set_dirty(b, t) of the variable store; a
no-op outside the live window. -/
def setDirty (v : VarDirty) (b : Bool) (t : Int) : VarDirty :=
  if isLive v t then ⟨v.alloc, v.last, v.flags.set (v.last - t).toNat b⟩ else v

/-- Modelled from the spec: update_valid_step(t) moves the valid-step
window to (t - alloc, t], keeping the flags of steps live in both
windows and clearing the flags that fall out. -/
def updValidStep (v : VarDirty) (t : Int) : VarDirty :=
  ⟨v.alloc, t, (List.range v.alloc).map (fun i : Nat => isDirtyAt v (t - (i : Int)))⟩

/-- Per-variable dirty-map operations appearing in src: an API write to
step t (sets the window and the dirty bit, spec section 4.2); one
written output step of update_vars (yask.hpp lines 2155-2157:
update_valid_step then set_dirty(true) when mark_dirty); and the
clearing loop of exchange_halos (yask.hpp lines 2096-2102). -/
inductive DirtyOp
  | writeStep (t : Int)
  | updateVarsStep (t : Int) (mark : Bool)
  | exchangeClear (first last : Int)
deriving Repr, DecidableEq

/-- Whether the operation is the exchange_halos clearing pass. -/
def isExchangeOp : DirtyOp → Bool
  | .exchangeClear _ _ => true
  | _ => false

/-- Whether the operation writes step t (and so may set its dirty bit). -/
def opWritesStep : DirtyOp → Int → Prop
  | .writeStep s, t => t = s
  | .updateVarsStep s mark, t => mark = true ∧ t = s
  | .exchangeClear _ _, _ => False

/-- Effect of one operation on the dirty map. -/
def applyOp (v : VarDirty) : DirtyOp → VarDirty
  | .writeStep t => setDirty (updValidStep v t) true t
  | .updateVarsStep t mark =>
      let v1 := updValidStep v t
      if mark then setDirty v1 true t else v1
  | .exchangeClear f l =>
      ((List.range (l + 1 - f).toNat).map (fun i => f + (i : Int))).foldl
        (fun w si => if isDirtyAt w si then setDirty w false si else w) v

/-- Effect of a sequence of operations. -/
def applyOps (v : VarDirty) (ops : List DirtyOp) : VarDirty :=
  ops.foldl applyOp v

/-- Step t stays inside the live window through a whole operation
sequence. -/
def liveThrough (v : VarDirty) (ops : List DirtyOp) (t : Int) : Bool :=
  match ops with
  | [] => isLive v t
  | op :: rest => isLive v t && liveThrough (applyOp v op) rest t

theorem getD_set_bool (l : List Bool) (i j : Nat) (b : Bool) (h : i ≠ j) :
    (l.set i b).getD j false = l.getD j false := by
  rw [List.getD_eq_getElem?_getD, List.getD_eq_getElem?_getD, List.getElem?_set_ne h]

/-- Setting a dirty bit never changes the live window. -/
theorem isLive_setDirty (w : VarDirty) (b : Bool) (s t : Int) :
    isLive (setDirty w b s) t = isLive w t := by
  rw [setDirty]
  split
  · rfl
  · rfl

/-- After update_valid_step, a still-live step keeps its dirty bit. -/
theorem isDirtyAt_updValidStep (v : VarDirty) (s t : Int)
    (hl : isLive (updValidStep v s) t = true) :
    isDirtyAt (updValidStep v s) t = isDirtyAt v t := by
  have hl2 := hl
  rw [updValidStep, isLive] at hl2
  simp only [Bool.and_eq_true, decide_eq_true_eq] at hl2
  have hidx : (s - t).toNat < v.alloc := by omega
  rw [isDirtyAt, if_pos hl]
  show ((List.range v.alloc).map (fun i : Nat => isDirtyAt v (s - (i : Int)))).getD
      (s - t).toNat false = isDirtyAt v t
  have hlen : (s - t).toNat < ((List.range v.alloc).map
      (fun i : Nat => isDirtyAt v (s - (i : Int)))).length := by
    simpa using hidx
  rw [List.getD_eq_getElem _ _ hlen, List.getElem_map, List.getElem_range]
  have hst : s - (((s - t).toNat : Nat) : Int) = t := by omega
  rw [hst]

/-- Setting a dirty bit at step s never clears the bit of another
step. -/
theorem isDirtyAt_setDirty_other (v : VarDirty) (b : Bool) (s t : Int) (hne : t ≠ s) :
    isDirtyAt (setDirty v b s) t = isDirtyAt v t := by
  rw [setDirty]
  by_cases hs : isLive v s = true
  · rw [if_pos hs]
    rw [isDirtyAt, isDirtyAt]
    have hlive : isLive (⟨v.alloc, v.last, v.flags.set (v.last - s).toNat b⟩ : VarDirty) t
        = isLive v t := rfl
    rw [hlive]
    by_cases ht : isLive v t = true
    · rw [if_pos ht, if_pos ht]
      show (v.flags.set (v.last - s).toNat b).getD (v.last - t).toNat false
          = v.flags.getD (v.last - t).toNat false
      apply getD_set_bool
      rw [isLive] at hs ht
      simp only [Bool.and_eq_true, decide_eq_true_eq] at hs ht
      omega
    · rw [if_neg ht, if_neg ht]
  · rw [if_neg hs]

/-- Setting the dirty bit of a live step makes it dirty. -/
theorem isDirtyAt_setDirty_same (v : VarDirty) (s : Int)
    (hs : isLive v s = true) (hflags : v.flags.length = v.alloc) :
    isDirtyAt (setDirty v true s) s = true := by
  rw [setDirty, if_pos hs, isDirtyAt]
  have hlive : isLive (⟨v.alloc, v.last, v.flags.set (v.last - s).toNat true⟩ : VarDirty) s
      = isLive v s := rfl
  rw [hlive, if_pos hs]
  show (v.flags.set (v.last - s).toNat true).getD (v.last - s).toNat false = true
  have hidx : (v.last - s).toNat < v.flags.length := by
    rw [hflags]
    rw [isLive] at hs
    simp only [Bool.and_eq_true, decide_eq_true_eq] at hs
    omega
  have hlen : (v.last - s).toNat < (v.flags.set (v.last - s).toNat true).length := by
    simpa using hidx
  rw [List.getD_eq_getElem _ _ hlen, List.getElem_set_self]

/-- One non-exchange operation preserves a set dirty bit of a step that
stays live. -/
theorem applyOp_dirty_mono (v : VarDirty) (op : DirtyOp) (t : Int)
    (hop : isExchangeOp op = false)
    (hl2 : isLive (applyOp v op) t = true)
    (hd : isDirtyAt v t = true) :
    isDirtyAt (applyOp v op) t = true := by
  cases op with
  | writeStep s =>
    show isDirtyAt (setDirty (updValidStep v s) true s) t = true
    have hl3 : isLive (setDirty (updValidStep v s) true s) t = true := hl2
    rw [isLive_setDirty] at hl3
    by_cases hts : t = s
    · subst hts
      exact isDirtyAt_setDirty_same (updValidStep v t) t hl3 (by simp [updValidStep])
    · rw [isDirtyAt_setDirty_other _ _ _ _ hts]
      rw [isDirtyAt_updValidStep v s t hl3]
      exact hd
  | updateVarsStep s mark =>
    cases mark with
    | false =>
      show isDirtyAt (updValidStep v s) t = true
      have hl3 : isLive (updValidStep v s) t = true := hl2
      rw [isDirtyAt_updValidStep v s t hl3]
      exact hd
    | true =>
      show isDirtyAt (setDirty (updValidStep v s) true s) t = true
      have hl3 : isLive (setDirty (updValidStep v s) true s) t = true := hl2
      rw [isLive_setDirty] at hl3
      by_cases hts : t = s
      · subst hts
        exact isDirtyAt_setDirty_same (updValidStep v t) t hl3 (by simp [updValidStep])
      · rw [isDirtyAt_setDirty_other _ _ _ _ hts]
        rw [isDirtyAt_updValidStep v s t hl3]
        exact hd
  | exchangeClear f l => simp [isExchangeOp] at hop

/-- A non-exchange operation turns a clear dirty bit on only for the
step it writes. -/
theorem applyOp_dirty_flip (w : VarDirty) (op : DirtyOp) (t : Int)
    (hop : isExchangeOp op = false)
    (hbefore : isDirtyAt w t = false)
    (hafter : isDirtyAt (applyOp w op) t = true) :
    opWritesStep op t := by
  cases op with
  | writeStep s =>
    show t = s
    by_contra hts
    have hafter2 : isDirtyAt (setDirty (updValidStep w s) true s) t = true := hafter
    rw [isDirtyAt_setDirty_other _ _ _ _ hts] at hafter2
    by_cases hlu : isLive (updValidStep w s) t = true
    · rw [isDirtyAt_updValidStep w s t hlu, hbefore] at hafter2
      cases hafter2
    · rw [isDirtyAt, if_neg hlu] at hafter2
      cases hafter2
  | updateVarsStep s mark =>
    show mark = true ∧ t = s
    cases mark with
    | false =>
      exfalso
      have hafter2 : isDirtyAt (updValidStep w s) t = true := hafter
      by_cases hlu : isLive (updValidStep w s) t = true
      · rw [isDirtyAt_updValidStep w s t hlu, hbefore] at hafter2
        cases hafter2
      · rw [isDirtyAt, if_neg hlu] at hafter2
        cases hafter2
    | true =>
      refine ⟨rfl, ?_⟩
      by_contra hts
      have hafter2 : isDirtyAt (setDirty (updValidStep w s) true s) t = true := hafter
      rw [isDirtyAt_setDirty_other _ _ _ _ hts] at hafter2
      by_cases hlu : isLive (updValidStep w s) t = true
      · rw [isDirtyAt_updValidStep w s t hlu, hbefore] at hafter2
        cases hafter2
      · rw [isDirtyAt, if_neg hlu] at hafter2
        cases hafter2
  | exchangeClear f l => simp [isExchangeOp] at hop

/-- Claim C2: between two successive exchange_halos calls (a sequence
of operations none of which is the exchange_halos clearing pass), the
dirty bit of a step t that stays live can go false to true any number
of times, but never true to false: a set bit stays set across the whole
sequence, and any false-to-true flip of a single non-exchange operation
happens only for a step that operation writes. -/
theorem C2_dirty_flag_monotonicity (v : VarDirty) (ops : List DirtyOp) (t : Int)
    (hnoex : ∀ o ∈ ops, isExchangeOp o = false)
    (hlive : liveThrough v ops t) :
    (isDirtyAt v t = true → isDirtyAt (applyOps v ops) t = true)
    ∧ ∀ (w : VarDirty) (op : DirtyOp), isExchangeOp op = false →
        isDirtyAt w t = false → isDirtyAt (applyOp w op) t = true →
        opWritesStep op t := by
  refine ⟨?_, fun w op h1 h2 h3 => applyOp_dirty_flip w op t h1 h2 h3⟩
  induction ops generalizing v with
  | nil =>
    intro hd
    exact hd
  | cons op rest ih =>
    intro hd
    rw [liveThrough, Bool.and_eq_true] at hlive
    have hl2 : isLive (applyOp v op) t = true := by
      cases rest with
      | nil => exact hlive.2
      | cons o2 r2 =>
        have := hlive.2
        rw [liveThrough, Bool.and_eq_true] at this
        exact this.1
    have hstep := applyOp_dirty_mono v op t (hnoex op (List.mem_cons_self _ _)) hl2 hd
    rw [applyOps, List.foldl_cons]
    exact ih (applyOp v op) (fun o ho => hnoex o (List.mem_cons_of_mem _ ho)) hlive.2 hstep

/-- Witness for C2: a variable with two live steps (4 and 5), step 4
dirty; writing step 5 keeps step 4 live and dirty. -/
theorem C2_dirty_flag_monotonicity_witness :
    isDirtyAt (applyOps ⟨2, 5, [false, true]⟩ [DirtyOp.writeStep 5]) 4 = true :=
  (C2_dirty_flag_monotonicity ⟨2, 5, [false, true]⟩ [DirtyOp.writeStep 5] 4
    (by decide) (by decide)).1 (by decide)

/-! ### Halo-exchange MPI tags (yask.hpp exchange_halos lines 1797-2118) -/

/-- Swap-relevant metadata of one variable as read by exchange_halos
(yask.hpp lines 1826-1865): name, scratch flag, whether the variable
has MPI buffers (membership in mpiData), and the dirty bits of its
valid steps.  Variable names are unique (vars live in a by-name map)
and are modelled as naturals carrying the alphabetical order of the
C++ name strings; only that order enters the tag computation. -/
structure VarMeta where
  name : Nat
  scratch : Bool
  hasBufs : Bool
  dirtySteps : List Bool
deriving Repr, DecidableEq

/-- Whether exchange_halos selects the variable for swapping (yask.hpp
lines 1827-1864): not scratch, has MPI buffers, and some valid step is
dirty. -/
def needsSwap (v : VarMeta) : Bool :=
  !v.scratch && v.hasBufs && v.dirtySteps.any id

/-- Ordered key list of the name-keyed map varsToSwap (yask.hpp lines
1817-1822 and 1826-1865): the names of the vars needing a swap, in
increasing name order, since std::map iterates keys in order. -/
def varsToSwap (vs : List VarMeta) : List Nat :=
  ((vs.filter needsSwap).map VarMeta.name).insertionSort (fun a b => a ≤ b)

/-- The four phases of the exchange sequence (yask.hpp line 1872). -/
inductive HaloStep
  | irecv
  | packIsend
  | unpack
  | finalWait
deriving Repr, DecidableEq

/-- Per-phase (name, MPI tag) pairs of exchange_halos: every phase
re-walks varsToSwap with the counter gi incremented before use
(yask.hpp lines 1903-1907), so the i-th variable of the map gets tag
i + 1; that tag is the one passed to MPI_Irecv (lines 1939-1941) in the
irecv phase and to MPI_Isend (lines 2002-2003) in the pack_isend
phase.  The walk does not depend on the phase. -/
def phaseTags (vs : List VarMeta) (step : HaloStep) : List (Nat × Nat) :=
  match step with
  | _ => (varsToSwap vs).enum.map (fun p => (p.2, p.1 + 1))

/-- MPI tag used for a variable in the current exchange_halos call: its
1-based position in varsToSwap. -/
def tagOf (vs : List VarMeta) (nm : Nat) : Nat :=
  (varsToSwap vs).indexOf nm + 1

/-- Stable ordinal of a variable in the full alphabetical variable map,
as the claim states the tag: its 1-based position among the names of
all variables in increasing order. -/
def fullOrdinal (vs : List VarMeta) (nm : Nat) : Nat :=
  ((vs.map VarMeta.name).insertionSort (fun a b => a ≤ b)).indexOf nm + 1

/-- Counterexample to claim C3 as stated: with variable a (no MPI
buffers) and variable b (dirty, with buffers), the tag used for b in
both Irecv and Isend is 1, but the stable ordinal of b in the
alphabetical variable map is 2.  The tag is the position in the
per-call map of vars needing exchange, not in the full variable map. -/
theorem C3_counterexample :
    needsSwap ⟨1, false, true, [true]⟩ = true
    ∧ phaseTags [⟨0, false, false, [true]⟩, ⟨1, false, true, [true]⟩]
        HaloStep.irecv = [(1, 1)]
    ∧ phaseTags [⟨0, false, false, [true]⟩, ⟨1, false, true, [true]⟩]
        HaloStep.packIsend = [(1, 1)]
    ∧ tagOf [⟨0, false, false, [true]⟩, ⟨1, false, true, [true]⟩] 1 = 1
    ∧ fullOrdinal [⟨0, false, false, [true]⟩, ⟨1, false, true, [true]⟩] 1 = 2
    ∧ (1 : Nat) ≠ 2 := by
  refine ⟨rfl, ?_, ?_, ?_, ?_, by decide⟩ <;> rfl

/-- Claim C3 (amended): within one exchange_halos call, the (name, tag)
pairs are identical in every phase, so the Isend and the matching Irecv
use the same tag; that tag is the 1-based ordinal of the variable in
the name-ordered map of variables being swapped in this call; and two
ranks agreeing on that map compute identical tags. -/
theorem C3_exchange_tags (vs : List VarMeta) (nm : Nat)
    (hmem : nm ∈ varsToSwap vs) :
    (∀ st st2 : HaloStep, phaseTags vs st = phaseTags vs st2)
    ∧ (nm, tagOf vs nm) ∈ phaseTags vs HaloStep.irecv
    ∧ ∀ vs2 : List VarMeta, varsToSwap vs2 = varsToSwap vs →
        tagOf vs2 nm = tagOf vs nm := by
  refine ⟨fun st st2 => rfl, ?_, ?_⟩
  · rw [phaseTags, tagOf]
    have hidx : (varsToSwap vs).indexOf nm < (varsToSwap vs).length :=
      List.indexOf_lt_length.mpr hmem
    rw [List.mem_map]
    refine ⟨((varsToSwap vs).indexOf nm, nm), ?_, rfl⟩
    rw [List.mem_iff_getElem]
    refine ⟨(varsToSwap vs).indexOf nm, by simpa using hidx, ?_⟩
    rw [List.getElem_enum]
    rw [List.getElem_indexOf hidx]
  · intro vs2 h2
    rw [tagOf, tagOf, h2]

/-- Witness for the amended C3 at the two-variable configuration. -/
theorem C3_exchange_tags_witness :
    1 ∈ varsToSwap [⟨0, false, false, [true]⟩, ⟨1, false, true, [true]⟩]
    ∧ (1, tagOf [⟨0, false, false, [true]⟩, ⟨1, false, true, [true]⟩] 1)
        ∈ phaseTags [⟨0, false, false, [true]⟩, ⟨1, false, true, [true]⟩]
            HaloStep.irecv :=
  ⟨by decide,
   (C3_exchange_tags [⟨0, false, false, [true]⟩, ⟨1, false, true, [true]⟩] 1
     (by decide)).2.1⟩

/-! ### Bounding-box discovery (setup.cpp find_bounding_box lines
922-1179)

The tuple visitation primitive visitAllPoints and the containment test
is_in_bb live in the tuple library outside the provided sources; both
are modelled from the spec (section 4.1): visit_all_points enumerates
the n-D box in row-major order, and bounding boxes expose
contains(point).  Points are lists of idx_t over the domain dims. -/

/-- Elementwise sum of two points. -/
def addPt (a b : List Int) : List Int := List.zipWith (· + ·) a b

/-- Elementwise difference of two points. -/
def subPt (a b : List Int) : List Int := List.zipWith (· - ·) a b

/-- A bounding box of points [bbBegin, bbEnd) per dim (spec section
3). -/
structure BBox where
  bbBegin : List Int
  bbEnd : List Int
deriving Repr, DecidableEq

/-- Modelled from the spec: the containment test is_in_bb /
contains(point) of the bounding-box API (spec section 4.1): begin ≤ p
and p < end in every dim. -/
def inBB (b : BBox) (p : List Int) : Bool :=
  (List.zip b.bbBegin (List.zip b.bbEnd p)).all
    (fun q => decide (q.1 ≤ q.2.2) && decide (q.2.2 < q.2.1))

/-- Number of points of a box: the product of its per-dim lengths
(update_bb, setup.cpp lines 1189-1190). -/
def bbSizeOf (b : BBox) : Int := (subPt b.bbEnd b.bbBegin).prod

/-- Whether a point lies in one of the already-discovered boxes
(setup.cpp lines 1003-1008 and 1049-1054). -/
def coveredBy (bbs : List BBox) (p : List Int) : Bool := bbs.any (fun b => inBB b p)

/-- Modelled from the spec: visit_all_points enumerates the n-D box in
row-major order (spec section 4.1); these are the offsets of a box of
the given per-dim lengths in that order, first dim outermost and last
dim fastest. -/
def allOffsets : List Int → List (List Int)
  | [] => [[]]
  | l :: rest => (List.range l.toNat).flatMap
      (fun i => (allOffsets rest).map (((i : Nat) : Int) :: ·))

/-- First dim whose offset is beyond the starting point, with that
offset (the adjustment loop of setup.cpp lines 1063-1079). -/
def firstPosDim : List Int → Option (Nat × Int)
  | [] => none
  | x :: rest =>
      if 0 < x then some (0, x)
      else (firstPosDim rest).map (fun p => (p.1 + 1, p.2))

/-- One pass of the rect scan (setup.cpp lines 1031-1083): walk the
offsets of the scan box in visitation order; at the first point that is
not valid-and-uncovered, cut the first dim whose offset is beyond the
start; a failing point at offset zero in every dim makes no adjustment
and the walk continues (the C++ adjustment loop falls through). -/
def firstAdjust (valid : List Int → Bool) (bbs : List BBox) (bdpt : List Int) :
    List (List Int) → Option (Nat × Int)
  | [] => none
  | eofs :: rest =>
      let pt := addPt bdpt eofs
      if valid pt && !(coveredBy bbs pt) then firstAdjust valid bbs bdpt rest
      else
        match firstPosDim eofs with
        | some iv => some iv
        | none => firstAdjust valid bbs bdpt rest

/-- The repeat-until-stable rect scan (setup.cpp lines 1024-1084):
apply adjustments until none is made; when the cut is in the last dim
the scan stops without restarting (do_scan stays false, line 1074).
Fuel bounds the restarts; each adjustment strictly shrinks the box. -/
def scanLoop (valid : List Int → Bool) (bbs : List BBox) (bdpt : List Int) :
    Nat → List Int → List Int
  | 0, scanLen => scanLen
  | fuel + 1, scanLen =>
      match firstAdjust valid bbs bdpt (allOffsets scanLen) with
      | none => scanLen
      | some (i, v) =>
          let sl := scanLen.set i v
          if i < scanLen.length - 1 then scanLoop valid bbs bdpt fuel sl else sl

/-- Box discovery over one thread slice (setup.cpp lines 984-1098):
visit all points of the slice in visitation order; from each valid
point not covered by a box already found in this slice, run the rect
scan and append the resulting box to the slice list. -/
def sliceScan (valid : List Int → Bool) (sliceBegin sliceEnd : List Int) : List BBox :=
  let sliceLen := subPt sliceEnd sliceBegin
  (allOffsets sliceLen).foldl (fun bbs ofs =>
    let pt := addPt sliceBegin ofs
    if valid pt && !(coveredBy bbs pt) then
      let scanLen0 := subPt sliceEnd pt
      let fuel := (scanLen0.foldl (fun a x => a * x.toNat) 1) + 1
      let sl := scanLoop valid bbs pt fuel scanLen0
      bbs ++ [⟨pt, addPt pt sl⟩]
    else bbs) []

/-- Replace the outer-dim (head) entry of a point. -/
def setHead (l : List Int) (x : Int) : List Int :=
  match l with
  | [] => []
  | _ :: rest => x :: rest

/-- Merge test between a final box and a new slice box (setup.cpp lines
1139-1154): adjacent in the outer dim and aligned (equal begin and end)
in every other dim. -/
def canMergeBB (bb bbn : BBox) : Bool :=
  (bb.bbEnd.headD 0 == bbn.bbBegin.headD 0)
    && (bb.bbBegin.tail == bbn.bbBegin.tail)
    && (bb.bbEnd.tail == bbn.bbEnd.tail)

/-- Merge a new box with the first mergeable box of the final list by
extending its outer-dim end (setup.cpp lines 1155-1163); none when no
box merges. -/
def tryMergeBB : List BBox → BBox → Option (List BBox)
  | [], _ => none
  | bb :: rest, bbn =>
      if canMergeBB bb bbn then
        some (⟨bb.bbBegin, setHead bb.bbEnd (bbn.bbEnd.headD 0)⟩ :: rest)
      else (tryMergeBB rest bbn).map (bb :: ·)

/-- Collecting one slice box into the final list (setup.cpp lines
1116-1170): empty boxes are skipped, a mergeable box extends the first
match, anything else is appended. -/
def mergeStep (acc : List BBox) (bbn : BBox) : List BBox :=
  if bbSizeOf bbn == 0 then acc
  else
    match tryMergeBB acc bbn with
    | some l => l
    | none => acc ++ [bbn]

/-- Embedding of StencilBundleBase::find_bounding_box for a bundle with
a non-trivial sub-domain predicate (setup.cpp lines 944-1179): slice
the extended rank BB across the outer dim, one slice per thread (lines
949-974, using yask_for whose chunks start at 0), discover boxes per
slice, then collect and merge the slice lists in thread order (lines
1104-1172).  The result is the final _bb_list. -/
def findBoundingBoxList (valid : List Int → Bool) (extBegin extEnd : List Int)
    (nthreads : Nat) : List BBox :=
  let outerLen := extEnd.headD 0 - extBegin.headD 0
  let lenPerThr := ceilDivI outerLen (nthreads : Int)
  let sliceLists := (List.range nthreads).map (fun k =>
    let sb0 := extBegin.headD 0 + (k : Int) * lenPerThr
    let se0 := min (extEnd.headD 0) (sb0 + lenPerThr)
    if se0 ≤ sb0 then []
    else sliceScan valid (setHead extBegin sb0) (setHead extEnd se0))
  (sliceLists.flatMap id).foldl mergeStep []

/-- A concrete sub-domain predicate over a 2-D domain: valid only at
the origin. -/
def c1Valid (p : List Int) : Bool := p == [0, 0]

/-- Claim C1 fails on the code under the visitation order given by the
spec: on the extended rank BB [0,2) x [0,2) with the sub-domain
predicate valid only at (0,0) and one thread, find_bounding_box
produces the single inner BB [0,2) x [0,1), which contains the invalid
point (1,0): the first scan pass sees (0,1) fail, cuts the last dim and
stops without revalidating row 1 (setup.cpp lines 1074-1077), so the
union of the inner BBs is a strict superset of the valid set, contrary
to the claim and to the comment at setup.cpp line 944 and
stencil_calc.hpp lines 60-62. -/
theorem C1_bb_contains_invalid_point :
    findBoundingBoxList c1Valid [0, 0] [2, 2] 1 = [⟨[0, 0], [2, 1]⟩]
    ∧ inBB ⟨[0, 0], [2, 1]⟩ [1, 0] = true
    ∧ c1Valid [1, 0] = false := by
  refine ⟨by decide, by decide, by decide⟩

end Yask
